import Mathlib

/-!
Verification of the plane-tracker front-end's reconciliation logic,
sidebar comparator, haversine distance and poll-interval handler,
shallowly embedded from `src/App.tsx`.

The reconciliation code (the `setPlanes` / `setPlaneTrails` updaters inside
`fetchData`) only copies the numeric fields of aircraft snapshots around,
so the embedding is generic in the type `V` of those numeric values.
JavaScript `Map` objects keyed by `hex` are embedded as association lists
in insertion order; `Map.set` replaces the value in place when the key is
present and appends otherwise, exactly as in the embedding below.
-/

namespace PlaneTracker

/-- Embeds the `Plane` interface of `App.tsx` (lines 9-18): identifier `hex`,
flight label, and numeric fields `lat`, `lon`, `altitude`, `track`, `speed`
of a generic value type `V`, plus the derived `active` flag. -/
structure Plane (V : Type) where
  hex : String
  flight : String
  lat : V
  lon : V
  altitude : V
  track : V
  speed : V
  active : Bool
  deriving DecidableEq

variable {V : Type}

/-- Identifier list of a list of planes (`data.map(p => p.hex)`). -/
def hexes (l : List (Plane V)) : List String := l.map (fun p => p.hex)

/-- Association-list embedding of a JavaScript `Map<string, Plane>`:
entries in insertion order. -/
abbrev PlaneMap (V : Type) := List (String × Plane V)

/-- Key list of a map, in insertion order. -/
def keys (m : PlaneMap V) : List String := m.map (fun e => e.1)

/-- Replacement of the entry with key `k` by `(k, v)`, leaving other
entries alone; the in-place part of `Map.set`. -/
def setEntry (k : String) (v : Plane V) (e : String × Plane V) : String × Plane V :=
  if e.1 = k then (k, v) else e

/-- Embeds `Map.set(k, v)`: if the key is present the value is replaced in
place (insertion position kept), otherwise the entry is appended. -/
def mapSet (m : PlaneMap V) (k : String) (v : Plane V) : PlaneMap V :=
  if k ∈ keys m then m.map (setEntry k v)
  else m ++ [(k, v)]

/-- Embeds `Map.get(k)`: the value of the first entry with key `k`. -/
def mlookup : PlaneMap V → String → Option (Plane V)
  | [], _ => none
  | e :: rest, k => if e.1 = k then some e.2 else mlookup rest k

/-- Embeds `new Map(prevPlanes.map(p => [p.hex, p]))` (App.tsx line 162):
the pairs are inserted in order, later pairs overwriting earlier ones. -/
def buildMap (prevPlanes : List (Plane V)) : PlaneMap V :=
  prevPlanes.foldl (fun m p => mapSet m p.hex p) []

/-- Embeds the body of `data.forEach((plane) => planeMap.set(plane.hex,
{ ...plane, active: true }))` (App.tsx lines 165-167). -/
def upsert (m : PlaneMap V) (p : Plane V) : PlaneMap V :=
  mapSet m p.hex { p with active := true }

/-- Embeds the body of the second `forEach` (App.tsx lines 170-174):
`if (!dataHexSet.has(hex)) planeMap.set(hex, { ...plane, active: false })`;
setting an existing key replaces the value in place, so the pass is a map
over the entries. -/
def markInactive (dataHexSet : List String) (e : String × Plane V) : String × Plane V :=
  if e.1 ∈ dataHexSet then e else (e.1, { e.2 with active := false })

/-- Embeds the `setPlanes` updater of `fetchData` (App.tsx lines 160-177):
build `planeMap` from the previous planes, upsert every snapshot of `data`
with `active := true`, mark every plane whose hex is absent from `data` as
inactive, and return the values in map order. -/
def updatePlanes (prevPlanes : List (Plane V)) (data : List (Plane V)) : List (Plane V) :=
  let dataHexSet := hexes data
  let planeMap0 := buildMap prevPlanes
  let planeMap1 := data.foldl upsert planeMap0
  let planeMap2 := planeMap1.map (markInactive dataHexSet)
  planeMap2.map (fun e => e.2)

/-- Embeds the `setPlaneTrails` updater of `fetchData` (App.tsx lines
179-193): for every snapshot of `data`, in order, append its `(lat, lon)`
to the trail stored under its hex (an absent trail reads as empty). -/
def updateTrails (prev : String → List (V × V)) (data : List (Plane V)) :
    String → List (V × V) :=
  data.foldl (fun tr p => fun k => if k = p.hex then tr p.hex ++ [(p.lat, p.lon)] else tr k) prev

/-- Reconciler state: the tracked-aircraft list and the trail map, as held
by the `planes` and `planeTrails` component states of `App`. -/
structure TrackerState (V : Type) where
  planes : List (Plane V)
  trails : String → List (V × V)

/-- One successful poll: apply a snapshot batch to the state, as one run of
the body of `fetchData` (App.tsx lines 155-197). -/
def update (s : TrackerState V) (data : List (Plane V)) : TrackerState V :=
  { planes := updatePlanes s.planes data, trails := updateTrails s.trails data }

/-- Initial component state: `useState<Plane[]>([])` and
`useState<Record<string, ...>>({})`. -/
def initialState : TrackerState V := { planes := [], trails := fun _ => [] }

/-- A sequence of successful polls applied from the initial state. -/
def applySeq (batches : List (List (Plane V))) : TrackerState V :=
  batches.foldl update initialState

/-- Observer: the first (in reachable states, the unique) tracked plane
with the given hex. -/
def trackedEntry : List (Plane V) → String → Option (Plane V)
  | [], _ => none
  | p :: rest, h => if p.hex = h then some p else trackedEntry rest h

/-- Observer: the last plane of a list carrying the given hex. -/
def lastWithHex : List (Plane V) → String → Option (Plane V)
  | [], _ => none
  | p :: rest, h =>
    match lastWithHex rest h with
    | some q => some q
    | none => if p.hex = h then some p else none

/-- Observer: the `(lat, lon)` points contributed to hex `h`'s trail by one
batch, in batch order. -/
def pointsFor : List (Plane V) → String → List (V × V)
  | [], _ => []
  | p :: rest, h => (if p.hex = h then [(p.lat, p.lon)] else []) ++ pointsFor rest h

/-- Observer: the number of snapshots of a batch carrying the given hex. -/
def countHex : List (Plane V) → String → Nat
  | [], _ => 0
  | p :: rest, h => (if p.hex = h then 1 else 0) + countHex rest h

/-- Every entry of the plane map stores a plane whose `hex` is its key. -/
def KeyedByHex (m : PlaneMap V) : Prop := ∀ e ∈ m, e.2.hex = e.1

/-! ### JavaScript numeric values for malformed snapshots

The feed is parsed with `res.json()` and cast to `Plane[]` without any
validation, so a numeric field of a snapshot may be a finite number, a
non-finite IEEE value (`NaN`, `Infinity`, `-Infinity`), or missing
entirely (`undefined`). `JSNum` embeds these possibilities; the
reconciler is generic in the value type and never inspects the values. -/

/-- Possible states of a JSON-decoded numeric field. -/
inductive JSNum where
  | num (q : ℚ)
  | nan
  | inf
  | ninf
  | undef
  deriving DecidableEq

/-- Whether a field holds a finite number. -/
def JSNum.isFinite : JSNum → Bool
  | .num _ => true
  | _ => false

/-- Whether a field is missing (`undefined`). -/
def JSNum.isMissing : JSNum → Bool
  | .undef => true
  | _ => false

/-- A snapshot is malformed when a required numeric field is missing or
its latitude or longitude is non-finite. -/
def malformed (p : Plane JSNum) : Bool :=
  p.lat.isMissing || p.lon.isMissing || p.altitude.isMissing || p.track.isMissing ||
    p.speed.isMissing || !p.lat.isFinite || !p.lon.isFinite

/-- A snapshot with a non-finite (`NaN`) latitude. -/
def badPlane : Plane JSNum :=
  { hex := "bad1", flight := "X", lat := JSNum.nan, lon := JSNum.num 0,
    altitude := JSNum.num 0, track := JSNum.num 0, speed := JSNum.num 0, active := false }

/-! ### Concrete sample snapshots used by the witnesses -/

/-- A sample snapshot (the spec's batch one scenario). -/
def sampleSnap : Plane ℚ :=
  { hex := "a1", flight := "UAL1 ", lat := 40, lon := -75,
    altitude := 10000, track := 90, speed := 400, active := false }

/-- A second snapshot with the same hex but a different latitude. -/
def sampleSnap2 : Plane ℚ :=
  { hex := "a1", flight := "UAL1 ", lat := 401 / 10, lon := -75,
    altitude := 10000, track := 90, speed := 400, active := false }

/-- A snapshot with a different hex. -/
def sampleOther : Plane ℚ :=
  { hex := "b2", flight := "DAL2", lat := 41, lon := -74,
    altitude := 20000, track := 180, speed := 450, active := false }

/-! ### Haversine distance and the sidebar comparator

These embed `haversineDistance` (App.tsx lines 20-40) and the sidebar sort
comparator (App.tsx lines 302-311) over the real numbers. -/

/-- Embeds `toRad` (App.tsx line 26). -/
noncomputable def toRad (x : ℝ) : ℝ := x * Real.pi / 180

/-- Embeds the intermediate `a` of `haversineDistance` (App.tsx lines 31-36). -/
noncomputable def havA (lat1 lon1 lat2 lon2 : ℝ) : ℝ :=
  Real.sin (toRad (lat2 - lat1) / 2) * Real.sin (toRad (lat2 - lat1) / 2) +
    Real.cos (toRad lat1) * Real.cos (toRad lat2) *
      Real.sin (toRad (lon2 - lon1) / 2) * Real.sin (toRad (lon2 - lon1) / 2)

/-- Embeds JavaScript `Math.atan2(y, x)` over the reals. -/
noncomputable def atan2 (y x : ℝ) : ℝ :=
  if 0 < x then Real.arctan (y / x)
  else if x < 0 ∧ 0 ≤ y then Real.arctan (y / x) + Real.pi
  else if x < 0 ∧ y < 0 then Real.arctan (y / x) - Real.pi
  else if x = 0 ∧ 0 < y then Real.pi / 2
  else if x = 0 ∧ y < 0 then -(Real.pi / 2)
  else 0

/-- Embeds `haversineDistance` (App.tsx lines 20-40): `R = 6371`,
`c = 2 * atan2(sqrt(a), sqrt(1 - a))`, result `R * c`. -/
noncomputable def haversineDistance (lat1 lon1 lat2 lon2 : ℝ) : ℝ :=
  6371 * (2 * atan2 (Real.sqrt (havA lat1 lon1 lat2 lon2))
    (Real.sqrt (1 - havA lat1 lon1 lat2 lon2)))

/-- Embeds the sidebar sort comparator (App.tsx lines 302-311): active
before inactive, then by distance from the user location when present,
otherwise 0. -/
noncomputable def sidebarCompare (userLocation : Option (ℝ × ℝ)) (a b : Plane ℝ) : ℝ :=
  if a.active && !b.active then -1
  else if !a.active && b.active then 1
  else
    match userLocation with
    | some home =>
        haversineDistance home.1 home.2 a.lat a.lon -
          haversineDistance home.1 home.2 b.lat b.lon
    | none => 0

/-- An active aircraft at latitude 0, longitude 1. -/
def planeNear : Plane ℝ :=
  { hex := "n1", flight := "N1", lat := 0, lon := 1,
    altitude := 0, track := 0, speed := 0, active := true }

/-- An active aircraft at latitude 0, longitude 2. -/
def planeFar : Plane ℝ :=
  { hex := "f1", flight := "F1", lat := 0, lon := 2,
    altitude := 0, track := 0, speed := 0, active := true }

/-- An inactive aircraft. -/
def planeInactive : Plane ℝ :=
  { hex := "i1", flight := "I1", lat := 0, lon := 1,
    altitude := 0, track := 0, speed := 0, active := false }

/-! ### The poll-interval handler -/

/-- Embeds the `useState<number>(500)` default of `updateInterval`
(App.tsx line 129). -/
def updateIntervalDefault : ℚ := 500

/-- Embeds `handleIntervalChange` (App.tsx lines 133-138): the submitted
text parses to a number or to `NaN` (modelled as `none`); the stored
interval changes only when the parse succeeded and the value is at least
100. -/
def handleIntervalChange (current : ℚ) (value : Option ℚ) : ℚ :=
  match value with
  | some v => if 100 ≤ v then v else current
  | none => current

/-! ### Basic association-list lemmas -/

@[simp]
theorem keys_nil : keys ([] : PlaneMap V) = [] := rfl

@[simp]
theorem keys_cons (e : String × Plane V) (m : PlaneMap V) :
    keys (e :: m) = e.1 :: keys m := rfl

theorem keys_append (m m' : PlaneMap V) : keys (m ++ m') = keys m ++ keys m' := by
  simp [keys]

@[simp]
theorem mlookup_nil (k : String) : mlookup ([] : PlaneMap V) k = none := rfl

@[simp]
theorem mlookup_cons (e : String × Plane V) (m : PlaneMap V) (k : String) :
    mlookup (e :: m) k = if e.1 = k then some e.2 else mlookup m k := rfl

theorem mlookup_eq_none_iff (m : PlaneMap V) (k : String) :
    mlookup m k = none ↔ k ∉ keys m := by
  induction m with
  | nil => simp
  | cons e rest ih =>
    by_cases h : e.1 = k
    · simp [h]
    · simp only [mlookup_cons, if_neg h, keys_cons, List.mem_cons, ih]
      constructor
      · intro hk hor
        rcases hor with hke | hmem
        · exact h hke.symm
        · exact hk hmem
      · intro hk hmem
        exact hk (Or.inr hmem)

theorem keys_map_setEntry (m : PlaneMap V) (k : String) (v : Plane V) :
    keys (m.map (setEntry k v)) = keys m := by
  induction m with
  | nil => rfl
  | cons e rest ih =>
    by_cases h : e.1 = k
    · simp [setEntry, h, ih]
    · simp [setEntry, h, ih]

theorem keys_mapSet (m : PlaneMap V) (k : String) (v : Plane V) :
    keys (mapSet m k v) = if k ∈ keys m then keys m else keys m ++ [k] := by
  unfold mapSet
  by_cases h : k ∈ keys m
  · simp [h, keys_map_setEntry]
  · simp [h, keys_append]

theorem mlookup_append (m m' : PlaneMap V) (k : String) :
    mlookup (m ++ m') k =
      match mlookup m k with
      | some v => some v
      | none => mlookup m' k := by
  induction m with
  | nil => simp
  | cons e rest ih =>
    by_cases h : e.1 = k
    · simp [h]
    · simp [h, ih]

theorem mlookup_map_setEntry_self (m : PlaneMap V) (k : String) (v : Plane V)
    (h : k ∈ keys m) : mlookup (m.map (setEntry k v)) k = some v := by
  induction m with
  | nil => simp at h
  | cons e rest ih =>
    by_cases he : e.1 = k
    · simp [setEntry, he]
    · have hrest : k ∈ keys rest := by
        rcases List.mem_cons.mp h with hk | hk
        · exact absurd hk.symm he
        · exact hk
      simp [setEntry, he, ih hrest]

theorem mlookup_map_setEntry_ne (m : PlaneMap V) (k k' : String) (v : Plane V)
    (hne : k' ≠ k) : mlookup (m.map (setEntry k v)) k' = mlookup m k' := by
  induction m with
  | nil => simp
  | cons e rest ih =>
    by_cases he : e.1 = k
    · have : k ≠ k' := fun h => hne h.symm
      simp [setEntry, he, this, ih]
    · by_cases hek : e.1 = k'
      · simp [setEntry, he, hek, hne]
      · simp [setEntry, he, hek, ih]

theorem mlookup_mapSet_self (m : PlaneMap V) (k : String) (v : Plane V) :
    mlookup (mapSet m k v) k = some v := by
  unfold mapSet
  by_cases h : k ∈ keys m
  · simp only [h, if_pos]
    exact mlookup_map_setEntry_self m k v h
  · simp only [h, if_neg, not_false_iff]
    rw [mlookup_append]
    have : mlookup m k = none := (mlookup_eq_none_iff m k).mpr h
    simp [this]

theorem mlookup_mapSet_ne (m : PlaneMap V) (k k' : String) (v : Plane V)
    (hne : k' ≠ k) : mlookup (mapSet m k v) k' = mlookup m k' := by
  unfold mapSet
  by_cases h : k ∈ keys m
  · simp only [h, if_pos]
    exact mlookup_map_setEntry_ne m k k' v hne
  · simp only [h, if_neg, not_false_iff]
    rw [mlookup_append]
    cases hm : mlookup m k' with
    | some v' => simp
    | none => simp [Ne.symm hne]

/-! ### Observer lemmas -/

theorem lastWithHex_eq_none_iff (l : List (Plane V)) (h : String) :
    lastWithHex l h = none ↔ h ∉ hexes l := by
  induction l with
  | nil => simp [lastWithHex, hexes]
  | cons p rest ih =>
    simp only [hexes, List.map_cons, List.mem_cons]
    cases hrest : lastWithHex rest h with
    | some q =>
      have : h ∈ hexes rest := by
        by_contra hmem
        rw [(ih).mpr hmem] at hrest
        exact Option.noConfusion hrest
      simp only [lastWithHex, hrest]
      constructor
      · intro hc
        exact Option.noConfusion hc
      · intro hc
        exact absurd (Or.inr this) hc
    | none =>
      have hmem : h ∉ hexes rest := (ih).mp hrest
      by_cases hp : p.hex = h
      · simp [lastWithHex, hrest, hp]
      · simp only [lastWithHex, hrest, if_neg hp]
        constructor
        · intro _ hor
          rcases hor with hor | hor
          · exact hp hor.symm
          · exact hmem hor
        · intro _
          trivial

theorem lastWithHex_append (l l' : List (Plane V)) (h : String) :
    lastWithHex (l ++ l') h =
      match lastWithHex l' h with
      | some q => some q
      | none => lastWithHex l h := by
  induction l with
  | nil =>
    cases hl : lastWithHex l' h <;> simp [lastWithHex, hl]
  | cons p rest ih =>
    have hstep : lastWithHex ((p :: rest) ++ l') h =
        match lastWithHex (rest ++ l') h with
        | some q => some q
        | none => if p.hex = h then some p else none := rfl
    rw [hstep, ih]
    cases hl : lastWithHex l' h <;> cases hr : lastWithHex rest h <;>
      simp [hl, hr, lastWithHex]

theorem lastWithHex_last (pre post : List (Plane V)) (p : Plane V)
    (hpost : p.hex ∉ hexes post) :
    lastWithHex (pre ++ p :: post) p.hex = some p := by
  rw [lastWithHex_append]
  have hnone : lastWithHex post p.hex = none := (lastWithHex_eq_none_iff post p.hex).mpr hpost
  simp [lastWithHex, hnone]

theorem lastWithHex_of_nodup (l : List (Plane V)) (q : Plane V)
    (hnd : (hexes l).Nodup) (hq : q ∈ l) : lastWithHex l q.hex = some q := by
  induction l with
  | nil => cases hq
  | cons p rest ih =>
    simp only [hexes, List.map_cons, List.nodup_cons] at hnd
    rcases List.mem_cons.mp hq with rfl | hmem
    · have hnone : lastWithHex rest q.hex = none :=
        (lastWithHex_eq_none_iff rest q.hex).mpr hnd.1
      simp [lastWithHex, hnone]
    · have := ih hnd.2 hmem
      simp [lastWithHex, this]

theorem trackedEntry_eq_none_iff (l : List (Plane V)) (h : String) :
    trackedEntry l h = none ↔ h ∉ hexes l := by
  induction l with
  | nil => simp [trackedEntry, hexes]
  | cons p rest ih =>
    by_cases hp : p.hex = h
    · simp [trackedEntry, hexes, hp]
    · simp only [trackedEntry, if_neg hp, hexes, List.map_cons, List.mem_cons, ih]
      constructor
      · intro hk hor
        rcases hor with hor | hor
        · exact hp hor.symm
        · exact hk hor
      · intro hk hmem
        exact hk (Or.inr hmem)

theorem trackedEntry_of_nodup (l : List (Plane V)) (q : Plane V)
    (hnd : (hexes l).Nodup) (hq : q ∈ l) : trackedEntry l q.hex = some q := by
  induction l with
  | nil => cases hq
  | cons p rest ih =>
    simp only [hexes, List.map_cons, List.nodup_cons] at hnd
    rcases List.mem_cons.mp hq with rfl | hmem
    · simp [trackedEntry]
    · have hne : p.hex ≠ q.hex := by
        intro hc
        exact hnd.1 (hc ▸ (List.mem_map.mpr ⟨q, hmem, rfl⟩))
      simp [trackedEntry, hne, ih hnd.2 hmem]

/-! ### The key-value invariant and map passes -/

theorem keyedByHex_nil : KeyedByHex ([] : PlaneMap V) := by
  intro e he
  cases he

theorem keyedByHex_mapSet {m : PlaneMap V} {k : String} {v : Plane V}
    (hm : KeyedByHex m) (hv : v.hex = k) : KeyedByHex (mapSet m k v) := by
  unfold mapSet
  by_cases h : k ∈ keys m
  · simp only [h, if_pos]
    intro e he
    rcases List.mem_map.mp he with ⟨e', he', rfl⟩
    unfold setEntry
    by_cases hk : e'.1 = k
    · simp [hk, hv]
    · simp [hk, hm e' he']
  · simp only [h, if_neg, not_false_iff]
    intro e he
    rcases List.mem_append.mp he with he' | he'
    · exact hm e he'
    · rcases List.mem_singleton.mp he' with rfl
      exact hv

theorem keyedByHex_upsertFold (data : List (Plane V)) :
    ∀ m0 : PlaneMap V, KeyedByHex m0 → KeyedByHex (data.foldl upsert m0) := by
  induction data with
  | nil => intro m0 hm0; exact hm0
  | cons p rest ih =>
    intro m0 hm0
    exact ih _ (keyedByHex_mapSet hm0 rfl)

theorem keyedByHex_buildMap (prevPlanes : List (Plane V)) :
    KeyedByHex (buildMap prevPlanes) := by
  unfold buildMap
  have : ∀ m0 : PlaneMap V, KeyedByHex m0 →
      KeyedByHex (prevPlanes.foldl (fun m p => mapSet m p.hex p) m0) := by
    induction prevPlanes with
    | nil => intro m0 hm0; exact hm0
    | cons p rest ih =>
      intro m0 hm0
      exact ih _ (keyedByHex_mapSet hm0 rfl)
  exact this [] keyedByHex_nil

theorem keyedByHex_markInactive {m : PlaneMap V} (dhs : List String)
    (hm : KeyedByHex m) : KeyedByHex (m.map (markInactive dhs)) := by
  intro e he
  rcases List.mem_map.mp he with ⟨e', he', rfl⟩
  unfold markInactive
  by_cases h : e'.1 ∈ dhs
  · simp [h, hm e' he']
  · simp [h, hm e' he']

theorem trackedEntry_map_snd (m : PlaneMap V) (hm : KeyedByHex m) (h : String) :
    trackedEntry (m.map (fun e => e.2)) h = mlookup m h := by
  induction m with
  | nil => rfl
  | cons e rest ih =>
    have hkey : e.2.hex = e.1 := hm e (List.mem_cons_self e rest)
    have hrest : KeyedByHex rest := fun e' he' => hm e' (List.mem_cons_of_mem e he')
    simp only [List.map_cons, trackedEntry, mlookup_cons, hkey, ih hrest]

theorem mlookup_map_markInactive (m : PlaneMap V) (dhs : List String) (h : String) :
    mlookup (m.map (markInactive dhs)) h =
      (mlookup m h).map (fun v => if h ∈ dhs then v else { v with active := false }) := by
  induction m with
  | nil => simp
  | cons e rest ih =>
    have hfst : (markInactive dhs e).1 = e.1 := by
      unfold markInactive
      by_cases hd : e.1 ∈ dhs <;> simp [hd]
    by_cases hk : e.1 = h
    · have hval : (markInactive dhs e).2 = if h ∈ dhs then e.2 else { e.2 with active := false } := by
        unfold markInactive
        rw [hk]
        by_cases hd : h ∈ dhs <;> simp [hd]
      simp [hfst, hk, hval]
    · simp [hfst, hk, ih]

theorem keys_map_markInactive (m : PlaneMap V) (dhs : List String) :
    keys (m.map (markInactive dhs)) = keys m := by
  induction m with
  | nil => rfl
  | cons e rest ih =>
    have hfst : (markInactive dhs e).1 = e.1 := by
      unfold markInactive
      by_cases hd : e.1 ∈ dhs <;> simp [hd]
    simp [hfst, ih]

/-! ### Lookup after the upsert fold and map construction -/

theorem mlookup_upsertFold (data : List (Plane V)) :
    ∀ (m0 : PlaneMap V) (h : String),
      mlookup (data.foldl upsert m0) h =
        match lastWithHex data h with
        | some p => some { p with active := true }
        | none => mlookup m0 h := by
  induction data with
  | nil =>
    intro m0 h
    simp [lastWithHex]
  | cons p rest ih =>
    intro m0 h
    simp only [List.foldl_cons]
    rw [ih (upsert m0 p) h]
    cases hrest : lastWithHex rest h with
    | some q => simp [lastWithHex, hrest]
    | none =>
      by_cases hph : p.hex = h
      · subst hph
        simp [lastWithHex, hrest, upsert, mlookup_mapSet_self]
      · have : h ≠ p.hex := fun hc => hph hc.symm
        simp [lastWithHex, hrest, hph, upsert, mlookup_mapSet_ne _ _ _ _ this]

theorem mlookup_buildFold (l : List (Plane V)) :
    ∀ (m0 : PlaneMap V) (h : String),
      mlookup (l.foldl (fun m p => mapSet m p.hex p) m0) h =
        match lastWithHex l h with
        | some p => some p
        | none => mlookup m0 h := by
  induction l with
  | nil =>
    intro m0 h
    simp [lastWithHex]
  | cons p rest ih =>
    intro m0 h
    simp only [List.foldl_cons]
    rw [ih]
    cases hrest : lastWithHex rest h with
    | some q => simp [lastWithHex, hrest]
    | none =>
      by_cases hph : p.hex = h
      · subst hph
        simp [lastWithHex, hrest, mlookup_mapSet_self]
      · have : h ≠ p.hex := fun hc => hph hc.symm
        simp [lastWithHex, hrest, hph, mlookup_mapSet_ne _ _ _ _ this]

theorem mlookup_buildMap (prevPlanes : List (Plane V)) (h : String) :
    mlookup (buildMap prevPlanes) h = lastWithHex prevPlanes h := by
  rw [buildMap, mlookup_buildFold prevPlanes [] h]
  cases hl : lastWithHex prevPlanes h <;> simp

/-! ### The master characterization of `updatePlanes` -/

theorem trackedEntry_updatePlanes (prevPlanes data : List (Plane V)) (h : String) :
    trackedEntry (updatePlanes prevPlanes data) h =
      match lastWithHex data h with
      | some p => some { p with active := true }
      | none => (lastWithHex prevPlanes h).map (fun q => { q with active := false }) := by
  unfold updatePlanes
  have hWF1 : KeyedByHex (data.foldl upsert (buildMap prevPlanes)) :=
    keyedByHex_upsertFold data _ (keyedByHex_buildMap prevPlanes)
  have hWF2 : KeyedByHex ((data.foldl upsert (buildMap prevPlanes)).map (markInactive (hexes data))) :=
    keyedByHex_markInactive _ hWF1
  rw [trackedEntry_map_snd _ hWF2 h, mlookup_map_markInactive, mlookup_upsertFold,
    mlookup_buildMap]
  cases hdata : lastWithHex data h with
  | some p =>
    have hmem : h ∈ hexes data := by
      by_contra hmem
      rw [(lastWithHex_eq_none_iff data h).mpr hmem] at hdata
      exact Option.noConfusion hdata
    simp [hmem]
  | none =>
    have hmem : h ∉ hexes data := (lastWithHex_eq_none_iff data h).mp hdata
    simp [hmem]

/-! ### Trail lemmas -/

theorem updateTrails_eq (data : List (Plane V)) :
    ∀ (prev : String → List (V × V)) (h : String),
      updateTrails prev data h = prev h ++ pointsFor data h := by
  induction data with
  | nil =>
    intro prev h
    simp [updateTrails, pointsFor]
  | cons p rest ih =>
    intro prev h
    have hstep : updateTrails prev (p :: rest) h =
        updateTrails (fun k => if k = p.hex then prev p.hex ++ [(p.lat, p.lon)] else prev k) rest h := rfl
    rw [hstep, ih]
    by_cases hph : h = p.hex
    · subst hph
      simp [pointsFor]
    · have : p.hex ≠ h := fun hc => hph hc.symm
      simp [pointsFor, hph, this]

theorem update_trails (s : TrackerState V) (data : List (Plane V)) (h : String) :
    (update s data).trails h = s.trails h ++ pointsFor data h :=
  updateTrails_eq data s.trails h

theorem foldl_update_trails (batches : List (List (Plane V))) :
    ∀ (s : TrackerState V) (h : String),
      (batches.foldl update s).trails h =
        s.trails h ++ (batches.map (fun b => pointsFor b h)).flatten := by
  induction batches with
  | nil =>
    intro s h
    simp
  | cons b rest ih =>
    intro s h
    simp only [List.foldl_cons, List.map_cons, List.flatten_cons]
    rw [ih (update s b) h, update_trails, List.append_assoc]

theorem length_pointsFor (b : List (Plane V)) (h : String) :
    (pointsFor b h).length = countHex b h := by
  induction b with
  | nil => rfl
  | cons p rest ih =>
    by_cases hp : p.hex = h
    · simp [pointsFor, countHex, hp, ih, Nat.add_comm]
    · simp [pointsFor, countHex, hp, ih]

theorem countHex_eq_zero_iff (b : List (Plane V)) (h : String) :
    countHex b h = 0 ↔ h ∉ hexes b := by
  induction b with
  | nil => simp [countHex, hexes]
  | cons p rest ih =>
    by_cases hp : p.hex = h
    · simp [countHex, hexes, hp]
    · simp only [countHex, if_neg hp, hexes, List.map_cons, List.mem_cons]
      rw [Nat.zero_add]
      constructor
      · intro hc hor
        rcases hor with hor | hor
        · exact hp hor.symm
        · exact ((ih).mp hc) hor
      · intro hc
        exact (ih).mpr (fun hmem => hc (Or.inr hmem))

theorem countHex_eq_one (b : List (Plane V)) (h : String)
    (hle : countHex b h ≤ 1) (hmem : h ∈ hexes b) : countHex b h = 1 := by
  have hne : countHex b h ≠ 0 := fun hc => ((countHex_eq_zero_iff b h).mp hc) hmem
  omega

theorem join_pointsFor_length (batches : List (List (Plane V))) (h : String)
    (hb : ∀ b ∈ batches, countHex b h ≤ 1) :
    ((batches.map (fun b => pointsFor b h)).flatten).length =
      (batches.filter (fun b => h ∈ hexes b)).length := by
  induction batches with
  | nil => rfl
  | cons b rest ih =>
    have hb1 : countHex b h ≤ 1 := hb b (List.mem_cons_self b rest)
    have hbr : ∀ b' ∈ rest, countHex b' h ≤ 1 :=
      fun b' hb' => hb b' (List.mem_cons_of_mem b hb')
    by_cases hmem : h ∈ hexes b
    · have h1 : countHex b h = 1 := countHex_eq_one b h hb1 hmem
      simp [List.filter_cons, hmem, length_pointsFor, h1, ih hbr, Nat.add_comm]
    · have h0 : countHex b h = 0 := (countHex_eq_zero_iff b h).mpr hmem
      simp [List.filter_cons, hmem, length_pointsFor, h0, ih hbr]

/-! ### Key uniqueness of the tracked set -/

theorem keys_nodup_mapSet {m : PlaneMap V} {k : String} {v : Plane V}
    (hnd : (keys m).Nodup) : (keys (mapSet m k v)).Nodup := by
  rw [keys_mapSet]
  by_cases h : k ∈ keys m
  · simpa [h] using hnd
  · simp only [h, if_neg, not_false_iff]
    rw [List.nodup_append]
    exact ⟨hnd, List.nodup_singleton k, by simpa [List.disjoint_singleton] using h⟩

theorem keys_nodup_upsertFold (data : List (Plane V)) :
    ∀ m0 : PlaneMap V, (keys m0).Nodup → (keys (data.foldl upsert m0)).Nodup := by
  induction data with
  | nil => intro m0 hm0; exact hm0
  | cons p rest ih =>
    intro m0 hm0
    exact ih _ (keys_nodup_mapSet hm0)

theorem keys_nodup_buildMap (prevPlanes : List (Plane V)) :
    (keys (buildMap prevPlanes)).Nodup := by
  unfold buildMap
  have hgen : ∀ m0 : PlaneMap V, (keys m0).Nodup →
      (keys (prevPlanes.foldl (fun m p => mapSet m p.hex p) m0)).Nodup := by
    induction prevPlanes with
    | nil => intro m0 hm0; exact hm0
    | cons p rest ih =>
      intro m0 hm0
      exact ih _ (keys_nodup_mapSet hm0)
  exact hgen [] (by simp)

theorem hexes_map_snd (m : PlaneMap V) (hm : KeyedByHex m) :
    hexes (m.map (fun e => e.2)) = keys m := by
  induction m with
  | nil => rfl
  | cons e rest ih =>
    have hkey : e.2.hex = e.1 := hm e (List.mem_cons_self e rest)
    have hrest : KeyedByHex rest := fun e' he' => hm e' (List.mem_cons_of_mem e he')
    simp only [hexes, keys, List.map_cons] at ih ⊢
    rw [hkey, ih hrest]

theorem hexes_updatePlanes_nodup (prevPlanes data : List (Plane V)) :
    (hexes (updatePlanes prevPlanes data)).Nodup := by
  unfold updatePlanes
  have hWF1 : KeyedByHex (data.foldl upsert (buildMap prevPlanes)) :=
    keyedByHex_upsertFold data _ (keyedByHex_buildMap prevPlanes)
  have hWF2 : KeyedByHex ((data.foldl upsert (buildMap prevPlanes)).map (markInactive (hexes data))) :=
    keyedByHex_markInactive _ hWF1
  rw [hexes_map_snd _ hWF2, keys_map_markInactive]
  exact keys_nodup_upsertFold data _ (keys_nodup_buildMap prevPlanes)

/-! ### Membership of the tracked set -/

theorem mem_hexes_iff_trackedEntry (l : List (Plane V)) (h : String) :
    h ∈ hexes l ↔ trackedEntry l h ≠ none := by
  rw [Ne, trackedEntry_eq_none_iff]
  exact (not_not).symm

theorem mem_hexes_updatePlanes (prevPlanes data : List (Plane V)) (h : String) :
    h ∈ hexes (updatePlanes prevPlanes data) ↔ h ∈ hexes data ∨ h ∈ hexes prevPlanes := by
  rw [mem_hexes_iff_trackedEntry, trackedEntry_updatePlanes]
  cases hdata : lastWithHex data h with
  | some p =>
    have : h ∈ hexes data := by
      by_contra hmem
      rw [(lastWithHex_eq_none_iff data h).mpr hmem] at hdata
      exact Option.noConfusion hdata
    simp [this]
  | none =>
    have hd : h ∉ hexes data := (lastWithHex_eq_none_iff data h).mp hdata
    cases hprev : lastWithHex prevPlanes h with
    | some q =>
      have : h ∈ hexes prevPlanes := by
        by_contra hmem
        rw [(lastWithHex_eq_none_iff prevPlanes h).mpr hmem] at hprev
        exact Option.noConfusion hprev
      simp [hd, this]
    | none =>
      have hp : h ∉ hexes prevPlanes := (lastWithHex_eq_none_iff prevPlanes h).mp hprev
      simp [hd, hp]

/-! ### Idempotence machinery -/

theorem planeMap_ext (m : PlaneMap V) :
    ∀ m' : PlaneMap V, keys m = keys m' → (keys m).Nodup →
      (∀ k, mlookup m k = mlookup m' k) → m = m' := by
  induction m with
  | nil =>
    intro m' hk _ _
    cases m' with
    | nil => rfl
    | cons f r => simp at hk
  | cons e rest ih =>
    intro m' hk hnd hl
    cases m' with
    | nil => simp at hk
    | cons f r =>
      simp only [keys_cons, List.cons.injEq] at hk
      have hnd' : e.1 ∉ keys rest ∧ (keys rest).Nodup := by
        simpa [List.nodup_cons] using hnd
      have hv : e.2 = f.2 := by
        have h := hl e.1
        rw [mlookup_cons, if_pos rfl, mlookup_cons, if_pos hk.1.symm] at h
        exact Option.some.inj h
      have hef : e = f := Prod.ext hk.1 hv
      have htail : rest = r := by
        apply ih r hk.2 hnd'.2
        intro k
        by_cases hke : k = e.1
        · have h1 : mlookup rest k = none := by
            rw [mlookup_eq_none_iff, hke]
            exact hnd'.1
          have h2 : mlookup r k = none := by
            rw [mlookup_eq_none_iff, hke, ← hk.2]
            exact hnd'.1
          rw [h1, h2]
        · have h := hl k
          have he : e.1 ≠ k := fun hc => hke hc.symm
          have hf : f.1 ≠ k := by
            rw [← hk.1]
            exact he
          rw [mlookup_cons, if_neg he, mlookup_cons, if_neg hf] at h
          exact h
      rw [hef, htail]

theorem keys_pairMap (l : List (Plane V)) :
    keys (l.map (fun p => (p.hex, p))) = hexes l := by
  induction l with
  | nil => rfl
  | cons p rest ih => simp only [List.map_cons, keys_cons, hexes, ih]

theorem mlookup_pairMap (l : List (Plane V)) (k : String) :
    mlookup (l.map (fun p => (p.hex, p))) k = trackedEntry l k := by
  induction l with
  | nil => rfl
  | cons p rest ih =>
    by_cases hp : p.hex = k
    · simp [trackedEntry, hp]
    · simp [trackedEntry, hp, ih]

theorem buildFold_of_fresh (l : List (Plane V)) :
    ∀ m0 : PlaneMap V, (∀ p ∈ l, p.hex ∉ keys m0) → (hexes l).Nodup →
      l.foldl (fun m p => mapSet m p.hex p) m0 = m0 ++ l.map (fun p => (p.hex, p)) := by
  induction l with
  | nil =>
    intro m0 _ _
    simp
  | cons p rest ih =>
    intro m0 hfresh hnd
    simp only [List.foldl_cons, List.map_cons]
    have hp : p.hex ∉ keys m0 := hfresh p (List.mem_cons_self p rest)
    have hset : mapSet m0 p.hex p = m0 ++ [(p.hex, p)] := by
      unfold mapSet
      rw [if_neg hp]
    rw [hset]
    have hnd' : p.hex ∉ hexes rest ∧ (hexes rest).Nodup := by
      simpa [hexes, List.nodup_cons] using hnd
    have hfresh' : ∀ q ∈ rest, q.hex ∉ keys (m0 ++ [(p.hex, p)]) := by
      intro q hq
      rw [keys_append]
      intro hc
      rcases List.mem_append.mp hc with hc | hc
      · exact hfresh q (List.mem_cons_of_mem p hq) hc
      · have hc2 : q.hex = p.hex := List.mem_singleton.mp (by simpa [keys] using hc)
        exact hnd'.1 (List.mem_map.mpr ⟨q, hq, hc2⟩)
    rw [ih _ hfresh' hnd'.2, List.append_assoc]
    rfl

theorem buildMap_of_nodup (l : List (Plane V)) (hnd : (hexes l).Nodup) :
    buildMap l = l.map (fun p => (p.hex, p)) := by
  unfold buildMap
  have := buildFold_of_fresh l [] (by intro p _; simp) hnd
  simpa using this

theorem keys_upsertFold_of_present (data : List (Plane V)) :
    ∀ m0 : PlaneMap V, (∀ p ∈ data, p.hex ∈ keys m0) →
      keys (data.foldl upsert m0) = keys m0 := by
  induction data with
  | nil =>
    intro m0 _
    rfl
  | cons p rest ih =>
    intro m0 hp
    simp only [List.foldl_cons]
    have hmem : p.hex ∈ keys m0 := hp p (List.mem_cons_self p rest)
    have hkeys : keys (upsert m0 p) = keys m0 := by
      unfold upsert
      rw [keys_mapSet, if_pos hmem]
    rw [ih (upsert m0 p) (by intro q hq; rw [hkeys]; exact hp q (List.mem_cons_of_mem p hq)), hkeys]

theorem plane_set_active_false_eq (p : Plane V) (hp : p.active = false) :
    { p with active := false } = p := by
  cases p
  simp only at hp
  simp [hp]

theorem updatePlanes_stable (P1 data : List (Plane V))
    (hnd : (hexes P1).Nodup)
    (hmem : ∀ h, h ∈ hexes data → h ∈ hexes P1)
    (hactive : ∀ h p, lastWithHex data h = some p →
      trackedEntry P1 h = some { p with active := true })
    (hinactive : ∀ q ∈ P1, q.hex ∉ hexes data → q.active = false) :
    updatePlanes P1 data = P1 := by
  show ((data.foldl upsert (buildMap P1)).map (markInactive (hexes data))).map (fun e => e.2) = P1
  have hbuild : buildMap P1 = P1.map (fun p => (p.hex, p)) := buildMap_of_nodup P1 hnd
  have hkeys0 : keys (P1.map (fun p => (p.hex, p))) = hexes P1 := keys_pairMap P1
  have hpresent : ∀ p ∈ data, p.hex ∈ keys (P1.map (fun q => (q.hex, q))) := by
    intro p hp
    rw [keys_pairMap]
    exact hmem p.hex (List.mem_map.mpr ⟨p, hp, rfl⟩)
  have hm1 : data.foldl upsert (buildMap P1) = P1.map (fun p => (p.hex, p)) := by
    rw [hbuild]
    apply planeMap_ext
    · exact keys_upsertFold_of_present data _ hpresent
    · rw [keys_upsertFold_of_present data _ hpresent, keys_pairMap]
      exact hnd
    · intro k
      rw [mlookup_upsertFold, mlookup_pairMap]
      cases hlast : lastWithHex data k with
      | some p => simpa using (hactive k p hlast).symm
      | none => simp
  rw [hm1]
  have hfix : (P1.map (fun p => (p.hex, p))).map (markInactive (hexes data)) =
      P1.map (fun p => (p.hex, p)) := by
    rw [List.map_map]
    apply List.map_congr_left
    intro p hp
    simp only [Function.comp]
    unfold markInactive
    by_cases hd : p.hex ∈ hexes data
    · simp [hd]
    · simp only [hd, if_neg, not_false_iff]
      rw [plane_set_active_false_eq p (hinactive p hp hd)]
  rw [hfix, List.map_map]
  have : ((fun e : String × Plane V => e.2) ∘ fun p : Plane V => (p.hex, p)) = id := rfl
  rw [this, List.map_id]

theorem updatePlanes_idem (prevPlanes data : List (Plane V)) :
    updatePlanes (updatePlanes prevPlanes data) data = updatePlanes prevPlanes data := by
  apply updatePlanes_stable
  · exact hexes_updatePlanes_nodup prevPlanes data
  · intro h hh
    exact (mem_hexes_updatePlanes prevPlanes data h).mpr (Or.inl hh)
  · intro h p hlast
    rw [trackedEntry_updatePlanes, hlast]
  · intro q hq hqd
    have hq1 : trackedEntry (updatePlanes prevPlanes data) q.hex = some q :=
      trackedEntry_of_nodup _ q (hexes_updatePlanes_nodup prevPlanes data) hq
    rw [trackedEntry_updatePlanes] at hq1
    have hlast : lastWithHex data q.hex = none := (lastWithHex_eq_none_iff data q.hex).mpr hqd
    rw [hlast] at hq1
    cases hprev : lastWithHex prevPlanes q.hex with
    | some r =>
      rw [hprev] at hq1
      have : { r with active := false } = q := by
        simpa using hq1
      rw [← this]
    | none =>
      rw [hprev] at hq1
      simp at hq1

/-! ### Small bridges -/

theorem update_planes (s : TrackerState V) (data : List (Plane V)) :
    (update s data).planes = updatePlanes s.planes data := rfl

theorem mem_hexes_foldl_update (batches : List (List (Plane V))) :
    ∀ (s : TrackerState V) (h : String),
      h ∈ hexes (batches.foldl update s).planes ↔
        (∃ b ∈ batches, h ∈ hexes b) ∨ h ∈ hexes s.planes := by
  induction batches with
  | nil =>
    intro s h
    simp
  | cons b rest ih =>
    intro s h
    rw [List.foldl_cons, ih (update s b) h, update_planes, mem_hexes_updatePlanes,
      List.exists_mem_cons_iff]
    constructor
    · rintro (hex | hb | hs)
      · exact Or.inl (Or.inr hex)
      · exact Or.inl (Or.inl hb)
      · exact Or.inr hs
    · rintro ((hb | hex) | hs)
      · exact Or.inr (Or.inl hb)
      · exact Or.inl hex
      · exact Or.inr (Or.inr hs)

theorem pointsFor_eq_nil (b : List (Plane V)) (h : String) (hmem : h ∉ hexes b) :
    pointsFor b h = [] := by
  have hlen := length_pointsFor b h
  rw [(countHex_eq_zero_iff b h).mpr hmem] at hlen
  exact List.length_eq_zero.mp hlen

/-! ### Claim theorems for the reconciler -/

/-- C1: for every previous tracked-aircraft state and every batch, every hex
present in the batch (written as `pre ++ p :: post` with `p` the last
snapshot carrying its hex) ends up tracked with `active = true` and all
other fields exactly equal to that snapshot's fields. -/
theorem snapshot_fields_applied (s : TrackerState V) (pre post : List (Plane V)) (p : Plane V)
    (hlast : p.hex ∉ hexes post) :
    trackedEntry (update s (pre ++ p :: post)).planes p.hex = some { p with active := true } := by
  rw [update_planes, trackedEntry_updatePlanes, lastWithHex_last pre post p hlast]

theorem snapshot_fields_applied_witness :
    trackedEntry (update initialState [sampleSnap]).planes "a1" =
      some { sampleSnap with active := true } :=
  snapshot_fields_applied initialState [] [] sampleSnap (by decide)

/-- C2: for every previous tracked-aircraft state (with its per-hex
uniqueness invariant) and every batch, a previously tracked aircraft whose
hex is absent from the batch ends up with `active = false` and all other
fields unchanged. -/
theorem absent_marked_inactive (s : TrackerState V) (data : List (Plane V)) (q : Plane V)
    (hnd : (hexes s.planes).Nodup) (hq : q ∈ s.planes) (habs : q.hex ∉ hexes data) :
    trackedEntry (update s data).planes q.hex = some { q with active := false } := by
  rw [update_planes, trackedEntry_updatePlanes,
    (lastWithHex_eq_none_iff data q.hex).mpr habs,
    lastWithHex_of_nodup s.planes q hnd hq]
  rfl

theorem absent_marked_inactive_witness :
    trackedEntry (update (update initialState [sampleSnap]) []).planes
        ({ sampleSnap with active := true } : Plane ℚ).hex =
      some { sampleSnap with active := false } :=
  absent_marked_inactive (update initialState [sampleSnap]) []
    { sampleSnap with active := true } (by decide) (by decide) (by decide)

/-- C3: applied from the empty initial state, the tracked hex set after a
sequence of batches is exactly the union of the hexes occurring in the
batches, and no update ever removes a tracked hex. -/
theorem tracked_set_is_union_of_batches :
    (∀ (batches : List (List (Plane V))) (h : String),
        h ∈ hexes (applySeq batches).planes ↔ ∃ b ∈ batches, h ∈ hexes b) ∧
    ∀ (s : TrackerState V) (data : List (Plane V)) (h : String),
        h ∈ hexes s.planes → h ∈ hexes (update s data).planes := by
  constructor
  · intro batches h
    rw [applySeq, mem_hexes_foldl_update]
    simp [initialState, hexes]
  · intro s data h hmem
    rw [update_planes]
    exact (mem_hexes_updatePlanes s.planes data h).mpr (Or.inr hmem)

theorem tracked_set_is_union_of_batches_witness :
    "a1" ∈ hexes (applySeq [[sampleSnap]]).planes :=
  (tracked_set_is_union_of_batches.1 [[sampleSnap]] "a1").mpr
    ⟨[sampleSnap], by decide, by decide⟩

/-- C4: the trail of hex `h` after a batch sequence is the previous trail
followed by the per-batch contributed points in chronological order; a
batch not containing `h` leaves the trail unchanged; and from the initial
state, when each batch carries `h` at most once, the trail length equals
the number of batches containing `h` (no cap is ever applied). -/
theorem trail_append_characterization :
    (∀ (s : TrackerState V) (batches : List (List (Plane V))) (h : String),
        (batches.foldl update s).trails h =
          s.trails h ++ (batches.map (fun b => pointsFor b h)).flatten) ∧
    (∀ (s : TrackerState V) (b : List (Plane V)) (h : String),
        h ∉ hexes b → (update s b).trails h = s.trails h) ∧
    ∀ (batches : List (List (Plane V))) (h : String),
        (∀ b ∈ batches, countHex b h ≤ 1) →
        ((applySeq batches).trails h).length =
          (batches.filter (fun b => h ∈ hexes b)).length := by
  refine ⟨?_, ?_, ?_⟩
  · intro s batches h
    exact foldl_update_trails batches s h
  · intro s b h hmem
    rw [update_trails, pointsFor_eq_nil b h hmem, List.append_nil]
  · intro batches h hb
    rw [applySeq, foldl_update_trails]
    have hinit : (initialState : TrackerState V).trails h = [] := rfl
    rw [hinit, List.nil_append]
    exact join_pointsFor_length batches h hb

theorem trail_append_characterization_witness :
    ((applySeq [[sampleSnap]]).trails "a1").length =
      ([[sampleSnap]].filter (fun b => "a1" ∈ hexes b)).length :=
  trail_append_characterization.2.2 [[sampleSnap]] "a1" (by decide)

/-- C6 (amended): applying the same batch twice in a row leaves the tracked
list identical after the second application, and the trail of each hex
grows by two points per occurrence of that hex in the batch (so by exactly
two points for a hex appearing once, and by `2 * k` points for a hex
appearing `k` times). -/
theorem update_twice_planes_and_trails (s : TrackerState V) (b : List (Plane V)) :
    (update (update s b) b).planes = (update s b).planes ∧
    ∀ h, ((update (update s b) b).trails h).length =
      (s.trails h).length + 2 * countHex b h := by
  constructor
  · exact updatePlanes_idem s.planes b
  · intro h
    show (updateTrails (updateTrails s.trails b) b h).length = _
    rw [updateTrails_eq, updateTrails_eq]
    simp only [List.length_append, length_pointsFor]
    omega

/-- C6, counterexample to the claim as stated: for a batch containing the
same hex twice, the double update appends four points to that hex's trail,
not two. -/
theorem update_twice_counterexample :
    "a1" ∈ hexes [sampleSnap, sampleSnap2] ∧
    ¬ ((update (update initialState [sampleSnap, sampleSnap2]) [sampleSnap, sampleSnap2]).trails "a1").length =
      ((initialState : TrackerState ℚ).trails "a1").length + 2 := by
  constructor
  · decide
  · decide

/-- C7: when a batch contains two or more snapshots with the same hex
(written `pre ++ p :: post` with `p` the last one in input order), the
tracked entry for that hex is the last such snapshot with `active = true`:
last-write-wins in input order. -/
theorem duplicate_hex_last_write_wins (s : TrackerState V) (pre post : List (Plane V))
    (p : Plane V) (hdup : 2 ≤ countHex (pre ++ p :: post) p.hex)
    (hlast : p.hex ∉ hexes post) :
    trackedEntry (update s (pre ++ p :: post)).planes p.hex = some { p with active := true } := by
  rw [update_planes, trackedEntry_updatePlanes, lastWithHex_last pre post p hlast]

theorem duplicate_hex_last_write_wins_witness :
    trackedEntry (update initialState ([sampleSnap] ++ sampleSnap2 :: [])).planes "a1" =
      some { sampleSnap2 with active := true } :=
  duplicate_hex_last_write_wins initialState [sampleSnap] [] sampleSnap2
    (by decide) (by decide)

/-- C5, counterexample to the claim as stated: a batch containing a
snapshot with a non-finite latitude is not rejected; the update changes
the tracked set. -/
theorem malformed_batch_counterexample :
    malformed badPlane = true ∧
    (update initialState [badPlane]).planes ≠ (initialState : TrackerState JSNum).planes := by
  constructor
  · rfl
  · decide

/-- C5 (amended): the code performs no validation; a batch containing a
malformed snapshot (missing numeric field or non-finite coordinate) is
applied in its entirety exactly like a well-formed one: the malformed
snapshot is upserted with `active = true` and its point is appended to
the trail. -/
theorem malformed_batch_applied (s : TrackerState JSNum) (pre post : List (Plane JSNum))
    (p : Plane JSNum) (hmal : malformed p = true) (hlast : p.hex ∉ hexes post) :
    trackedEntry (update s (pre ++ p :: post)).planes p.hex = some { p with active := true } ∧
    (update s (pre ++ p :: post)).trails p.hex =
      s.trails p.hex ++ pointsFor (pre ++ p :: post) p.hex := by
  constructor
  · rw [update_planes, trackedEntry_updatePlanes, lastWithHex_last pre post p hlast]
  · exact update_trails s (pre ++ p :: post) p.hex

theorem malformed_batch_applied_witness :
    trackedEntry (update initialState [badPlane]).planes "bad1" =
      some { badPlane with active := true } ∧
    (update initialState [badPlane]).trails "bad1" =
      (initialState : TrackerState JSNum).trails "bad1" ++ pointsFor [badPlane] "bad1" := by
  have h := malformed_batch_applied initialState [] [] badPlane (by decide) (by decide)
  exact h

/-! ### Properties of `atan2` and the haversine distance -/

theorem atan2_pos_x (y x : ℝ) (hx : 0 < x) : atan2 y x = Real.arctan (y / x) := by
  unfold atan2
  rw [if_pos hx]

theorem atan2_nonneg (y x : ℝ) (hy : 0 ≤ y) : 0 ≤ atan2 y x := by
  unfold atan2
  split_ifs with h1 h2 h3 h4 h5
  · have h0 : Real.arctan 0 ≤ Real.arctan (y / x) :=
      Real.arctan_strictMono.monotone (div_nonneg hy h1.le)
    simpa [Real.arctan_zero] using h0
  · have := Real.neg_pi_div_two_lt_arctan (y / x)
    have hpi := Real.pi_pos
    linarith
  · linarith [h3.2]
  · linarith [Real.pi_pos]
  · linarith [h5.2]
  · exact le_refl 0

theorem atan2_sqrt_lt (a b : ℝ) (ha : 0 ≤ a) (hab : a < b) (hb : b < 1) :
    atan2 (Real.sqrt a) (Real.sqrt (1 - a)) < atan2 (Real.sqrt b) (Real.sqrt (1 - b)) := by
  have h1a : 0 < 1 - a := by linarith
  have h1b : 0 < 1 - b := by linarith
  have hsa : 0 < Real.sqrt (1 - a) := Real.sqrt_pos.mpr h1a
  have hsb : 0 < Real.sqrt (1 - b) := Real.sqrt_pos.mpr h1b
  rw [atan2_pos_x _ _ hsa, atan2_pos_x _ _ hsb]
  apply Real.arctan_strictMono
  apply div_lt_div
  · exact Real.sqrt_lt_sqrt ha hab
  · exact Real.sqrt_le_sqrt (by linarith)
  · exact Real.sqrt_nonneg b
  · exact hsb

theorem havA_zero_lat (lon : ℝ) :
    havA 0 0 0 lon = Real.sin (lon * Real.pi / 180 / 2) * Real.sin (lon * Real.pi / 180 / 2) := by
  unfold havA toRad
  rw [sub_zero, sub_zero]
  norm_num [Real.sin_zero, Real.cos_zero]

theorem hav_lon1_lt_lon2 : haversineDistance 0 0 0 1 < haversineDistance 0 0 0 2 := by
  have hpi := Real.pi_pos
  have hs1pos : 0 < Real.sin (1 * Real.pi / 180 / 2) :=
    Real.sin_pos_of_pos_of_lt_pi (by linarith) (by linarith)
  have hs2pos : 0 < Real.sin (2 * Real.pi / 180 / 2) :=
    Real.sin_pos_of_pos_of_lt_pi (by linarith) (by linarith)
  have hmem1 : 1 * Real.pi / 180 / 2 ∈ Set.Icc (-(Real.pi / 2)) (Real.pi / 2) :=
    Set.mem_Icc.mpr ⟨by linarith, by linarith⟩
  have hmem2 : 2 * Real.pi / 180 / 2 ∈ Set.Icc (-(Real.pi / 2)) (Real.pi / 2) :=
    Set.mem_Icc.mpr ⟨by linarith, by linarith⟩
  have hmemtop : Real.pi / 2 ∈ Set.Icc (-(Real.pi / 2)) (Real.pi / 2) :=
    Set.mem_Icc.mpr ⟨by linarith, le_refl _⟩
  have hlt : Real.sin (1 * Real.pi / 180 / 2) < Real.sin (2 * Real.pi / 180 / 2) :=
    Real.strictMonoOn_sin hmem1 hmem2 (by linarith)
  have hlt1 : Real.sin (2 * Real.pi / 180 / 2) < 1 := by
    have h := Real.strictMonoOn_sin hmem2 hmemtop (by linarith)
    rwa [Real.sin_pi_div_two] at h
  have ha1 := havA_zero_lat 1
  have ha2 := havA_zero_lat 2
  unfold haversineDistance
  rw [ha1, ha2]
  have h1 : (0:ℝ) ≤ Real.sin (1 * Real.pi / 180 / 2) * Real.sin (1 * Real.pi / 180 / 2) :=
    mul_self_nonneg _
  have h2 : Real.sin (1 * Real.pi / 180 / 2) * Real.sin (1 * Real.pi / 180 / 2) <
      Real.sin (2 * Real.pi / 180 / 2) * Real.sin (2 * Real.pi / 180 / 2) :=
    mul_self_lt_mul_self (le_of_lt hs1pos) hlt
  have h3 : Real.sin (2 * Real.pi / 180 / 2) * Real.sin (2 * Real.pi / 180 / 2) < 1 := by
    nlinarith
  have hfinal := atan2_sqrt_lt _ _ h1 h2 h3
  linarith

/-! ### Claim theorems for the rendering-side functions -/

/-- C10: the haversine distance is symmetric, vanishes on identical
coordinate pairs, and is nonnegative. -/
theorem haversine_metric_properties :
    ∀ p q : ℝ × ℝ,
      haversineDistance p.1 p.2 q.1 q.2 = haversineDistance q.1 q.2 p.1 p.2 ∧
      haversineDistance p.1 p.2 p.1 p.2 = 0 ∧
      0 ≤ haversineDistance p.1 p.2 q.1 q.2 := by
  intro p q
  refine ⟨?_, ?_, ?_⟩
  · have ha : havA p.1 p.2 q.1 q.2 = havA q.1 q.2 p.1 p.2 := by
      unfold havA toRad
      have h1 : (q.1 - p.1) * Real.pi / 180 / 2 = -((p.1 - q.1) * Real.pi / 180 / 2) := by
        ring
      have h2 : (q.2 - p.2) * Real.pi / 180 / 2 = -((p.2 - q.2) * Real.pi / 180 / 2) := by
        ring
      rw [h1, h2, Real.sin_neg, Real.sin_neg]
      ring
    unfold haversineDistance
    rw [ha]
  · have ha : havA p.1 p.2 p.1 p.2 = 0 := by
      unfold havA toRad
      simp
    unfold haversineDistance
    rw [ha, Real.sqrt_zero, show (1:ℝ) - 0 = 1 by ring, Real.sqrt_one,
      atan2_pos_x 0 1 one_pos]
    simp [Real.arctan_zero]
  · have h := atan2_nonneg (Real.sqrt (havA p.1 p.2 q.1 q.2))
      (Real.sqrt (1 - havA p.1 p.2 q.1 q.2)) (Real.sqrt_nonneg _)
    unfold haversineDistance
    have h2 : (0:ℝ) ≤ 2 * atan2 (Real.sqrt (havA p.1 p.2 q.1 q.2))
        (Real.sqrt (1 - havA p.1 p.2 q.1 q.2)) := by linarith
    exact mul_nonneg (by norm_num) h2

/-- C8: the sidebar comparator orders active aircraft before inactive
ones, compares equal-activity aircraft by the difference of their
haversine distances from the home location when one is available, returns
0 for equal-activity aircraft without a home location, and in particular
with home (0,0) sorts an active aircraft at (0,1) before one at (0,2). -/
theorem sidebar_comparator_spec :
    (∀ (u : Option (ℝ × ℝ)) (a b : Plane ℝ), a.active = true → b.active = false →
        sidebarCompare u a b < 0) ∧
    (∀ (u : Option (ℝ × ℝ)) (a b : Plane ℝ), a.active = false → b.active = true →
        0 < sidebarCompare u a b) ∧
    (∀ (home : ℝ × ℝ) (a b : Plane ℝ), a.active = b.active →
        sidebarCompare (some home) a b =
          haversineDistance home.1 home.2 a.lat a.lon -
            haversineDistance home.1 home.2 b.lat b.lon) ∧
    (∀ (a b : Plane ℝ), a.active = b.active → sidebarCompare none a b = 0) ∧
    sidebarCompare (some (0, 0)) planeNear planeFar < 0 := by
  refine ⟨?_, ?_, ?_, ?_, ?_⟩
  · intro u a b ha hb
    unfold sidebarCompare
    rw [ha, hb]
    norm_num
  · intro u a b ha hb
    unfold sidebarCompare
    rw [ha, hb]
    norm_num
  · intro home a b hab
    unfold sidebarCompare
    rw [hab]
    cases hb : b.active <;> simp [hb]
  · intro a b hab
    unfold sidebarCompare
    rw [hab]
    cases hb : b.active <;> simp [hb]
  · unfold sidebarCompare
    have h := hav_lon1_lt_lon2
    simp only [planeNear, planeFar]
    norm_num
    linarith

theorem sidebar_comparator_spec_witness :
    sidebarCompare none planeNear planeFar = 0 ∧
    sidebarCompare none planeNear planeInactive < 0 :=
  ⟨sidebar_comparator_spec.2.2.2.1 planeNear planeFar rfl,
    sidebar_comparator_spec.1 none planeNear planeInactive rfl rfl⟩

/-- C9: the stored poll interval defaults to 500, changes only when the
submitted value parses to a number at least 100, and therefore stays at
least 100 across any sequence of handler calls. -/
theorem interval_handler_spec :
    updateIntervalDefault = 500 ∧
    (∀ (current : ℚ) (value : Option ℚ), handleIntervalChange current value ≠ current →
        ∃ v, value = some v ∧ 100 ≤ v ∧ handleIntervalChange current value = v) ∧
    ∀ inputs : List (Option ℚ), 100 ≤ inputs.foldl handleIntervalChange updateIntervalDefault := by
  refine ⟨rfl, ?_, ?_⟩
  · intro current value hne
    cases value with
    | none => exact absurd rfl hne
    | some v =>
      by_cases hv : 100 ≤ v
      · exact ⟨v, rfl, hv, by simp [handleIntervalChange, hv]⟩
      · exact absurd (by simp [handleIntervalChange, hv]) hne
  · intro inputs
    have step : ∀ (l : List (Option ℚ)) (c : ℚ), 100 ≤ c →
        100 ≤ l.foldl handleIntervalChange c := by
      intro l
      induction l with
      | nil => intro c hc; exact hc
      | cons v rest ih =>
        intro c hc
        apply ih
        cases v with
        | none => exact hc
        | some x =>
          by_cases hx : 100 ≤ x
          · simpa [handleIntervalChange, hx] using hx
          · simpa [handleIntervalChange, hx] using hc
    exact step inputs updateIntervalDefault (by norm_num [updateIntervalDefault])

theorem interval_handler_spec_witness :
    (100 : ℚ) ≤ List.foldl handleIntervalChange updateIntervalDefault [some 50, none, some 250] ∧
    ∃ v, some (250 : ℚ) = some v ∧ 100 ≤ v ∧ handleIntervalChange 500 (some 250) = v :=
  ⟨interval_handler_spec.2.2 [some 50, none, some 250],
    interval_handler_spec.2.1 500 (some 250) (by norm_num [handleIntervalChange])⟩

end PlaneTracker
